import Mathlib

/-!
Verification of the TS_Organizer PDF-organizing pipeline (`src/ts_cleaner.py`).

The development shallowly embeds the pure decision logic of the script:
the ISIN character classes and regular-expression patterns, the checksum
(`isin_checksum_valid`), candidate normalization (`normalize_isin_candidate`),
filename extraction (`extract_isin_from_name`), the per-file branch logic of
the reconcile and deduplicate stages, the conflict-suffix search loops, and
the moved-file counting of the ingest stage.  Strings are modelled as their
character lists; Python's ASCII-range character operations (`upper`, `lower`,
`strip`, the `\s` class) are modelled over ASCII, which is the alphabet all
ISIN processing in the script operates on.
-/

namespace TSCleaner

/-- ASCII uppercase letter: the class `[A-Z]` without `re.IGNORECASE`
(as used by the case-sensitive `re.fullmatch` inside `isin_checksum_valid`). -/
def isUpperC (c : Char) : Bool := 'A' ≤ c && c ≤ 'Z'

/-- ASCII lowercase letter. -/
def isLowerC (c : Char) : Bool := 'a' ≤ c && c ≤ 'z'

/-- The class `[A-Z]` under `re.IGNORECASE`, as in both module-level patterns. -/
def isLetterI (c : Char) : Bool := isUpperC c || isLowerC c

/-- The class `\d` / `[0-9]` (ASCII). -/
def isDigitC (c : Char) : Bool := '0' ≤ c && c ≤ '9'

/-- The class `[A-Z0-9]` under `re.IGNORECASE`. -/
def isAlnumI (c : Char) : Bool := isLetterI c || isDigitC c

/-- The class `[\s\-]` (whitespace modelled over ASCII). -/
def isSepC (c : Char) : Bool :=
  c == ' ' || c == '\t' || c == '\n' || c == '\r' || c == '\x0b' || c == '\x0c' || c == '-'

/-- Python `str.upper` on a single character (ASCII range). -/
def pyUpperChar (c : Char) : Char := if isLowerC c then Char.ofNat (c.toNat - 32) else c

/-- Python `str.lower` on a single character (ASCII range). -/
def pyLowerChar (c : Char) : Char := if isUpperC c then Char.ofNat (c.toNat + 32) else c

/-- `re.sub(r'[\s\-]+', '', s).upper()`: the body of `normalize_isin_candidate`,
at the character-list level.  Replacing every nonempty run of separator
characters by the empty string is the same as filtering them all out. -/
def normalizeL (l : List Char) : List Char := (l.filter (fun c => !isSepC c)).map pyUpperChar

/-- `normalize_isin_candidate` from the source. -/
def normalize_isin_candidate (s : String) : String := ⟨normalizeL s.data⟩

/-- Python's default `str.strip` character set (ASCII whitespace). -/
def isSpaceC (c : Char) : Bool :=
  c == ' ' || c == '\t' || c == '\n' || c == '\r' || c == '\x0b' || c == '\x0c'

/-- Python `str.strip()`: drop leading and trailing whitespace. -/
def pyStrip (s : String) : String :=
  ⟨((s.data.dropWhile isSpaceC).reverse.dropWhile isSpaceC).reverse⟩

/-- Python `str.lower()`. -/
def pyLower (s : String) : String := ⟨s.data.map pyLowerChar⟩

/-- `input(...).strip().lower() == 'y'`: the confirmation predicate used by
every prompt in the script. -/
def prompt_is_yes (s : String) : Bool := pyLower (pyStrip s) == "y"

/-- Consume exactly `n` leading characters each satisfying `p`; return the
remainder on success.  Models a fixed repetition `{n}` of a character class. -/
def takeClass (p : Char → Bool) : Nat → List Char → Option (List Char)
  | 0, l => some l
  | _ + 1, [] => none
  | n + 1, c :: cs => if p c then takeClass p n cs else none

/-- `re.fullmatch(r'[A-Z]{2}[A-Z0-9]{9}\d', code)` as a Boolean.
Note this regex is compiled without `re.IGNORECASE` in the source, so the
shape test is case-sensitive. -/
def fullShape (l : List Char) : Bool :=
  match takeClass isUpperC 2 l with
  | none => false
  | some l1 =>
    match takeClass (fun c => isUpperC c || isDigitC c) 9 l1 with
    | none => false
    | some l2 =>
      match takeClass isDigitC 1 l2 with
      | some [] => true
      | _ => false

/-- `str(ord(c) - 55) if c.isalpha() else c`, read back digit by digit:
an uppercase letter contributes its two decimal digits of `ord(c) - 55`
(a value in 10..35), a digit contributes itself. -/
def expandChar (c : Char) : List Nat :=
  if c.isAlpha then [(c.toNat - 55) / 10, (c.toNat - 55) % 10] else [c.toNat - 48]

/-- The `expanded` digit string of `isin_checksum_valid`, as a digit list. -/
def expandCode (l : List Char) : List Nat := (l.map expandChar).flatten

/-- The `for ch in reversed(expanded)` loop of `isin_checksum_valid`:
the argument list is the reversed digit sequence and the Boolean is the
`double` flag (initially `False`). -/
def luhnLoop : List Nat → Bool → Nat
  | [], _ => 0
  | d :: rest, dbl =>
    (if dbl then (if 2 * d > 9 then 2 * d - 9 else 2 * d) else d) + luhnLoop rest (!dbl)

/-- `isin_checksum_valid` from the source, at the character-list level. -/
def isinChecksumL (l : List Char) : Bool :=
  if fullShape l then luhnLoop (expandCode l).reverse false % 10 == 0 else false

/-- `isin_checksum_valid` from the source. -/
def isin_checksum_valid (code : String) : Bool := isinChecksumL code.data

/-- The lookbehind `(?<![A-Z0-9])` of both patterns, tested at position `i`. -/
def noAlnumBefore (t : List Char) (i : Nat) : Bool :=
  i == 0 || !isAlnumI (t.getD (i - 1) ' ')

/-- The lookahead `(?![A-Z0-9])` of both patterns, tested at the remainder
of the text after the match body. -/
def noAlnumAhead : List Char → Bool
  | [] => true
  | c :: _ => !isAlnumI c

/-- Body of `ISIN_PATTERN` (`[A-Z]{2}[A-Z0-9]{9}\d` with `re.IGNORECASE`):
consume the 12 characters, return the remainder. -/
def strictBodyEnd (l : List Char) : Option (List Char) :=
  match takeClass isLetterI 2 l with
  | none => none
  | some l1 =>
    match takeClass isAlnumI 9 l1 with
    | none => none
    | some l2 => takeClass isDigitC 1 l2

/-- Whether `ISIN_PATTERN` matches at position `i` of `t`, boundary
assertions included. -/
def strictMatchAt (t : List Char) (i : Nat) : Bool :=
  noAlnumBefore t i &&
    match strictBodyEnd (t.drop i) with
    | some rest => noAlnumAhead rest
    | none => false

/-- Greedy `[\s\-]*`: because the separator class is disjoint from every
character class that follows it in `ISIN_FLEXIBLE_PATTERN`, the regex
engine's greedy repetition with backtracking is equivalent to maximal
munch, which is what `dropWhile` computes. -/
def skipSeps (l : List Char) : List Char := l.dropWhile isSepC

/-- `(?:[\s\-]*[A-Z0-9]){n}`: `n` groups of separators followed by one
alphanumeric character. -/
def flexGroups : Nat → List Char → Option (List Char)
  | 0, l => some l
  | n + 1, l =>
    match skipSeps l with
    | [] => none
    | c :: cs => if isAlnumI c then flexGroups n cs else none

/-- Body of `ISIN_FLEXIBLE_PATTERN`
(`[A-Z]{2}(?:[\s\-]*[A-Z0-9]){9}[\s\-]*\d` with `re.IGNORECASE`). -/
def flexBody (l : List Char) : Option (List Char) :=
  match takeClass isLetterI 2 l with
  | none => none
  | some l1 =>
    match flexGroups 9 l1 with
    | none => none
    | some l2 =>
      match skipSeps l2 with
      | [] => none
      | c :: cs => if isDigitC c then some cs else none

/-- Whether `ISIN_FLEXIBLE_PATTERN` matches at position `i` of `t`
(boundary assertions included); returns the length of the matched span. -/
def flexMatchLen (t : List Char) (i : Nat) : Option Nat :=
  if noAlnumBefore t i then
    match flexBody (t.drop i) with
    | some rest => if noAlnumAhead rest then some ((t.drop i).length - rest.length) else none
    | none => none
  else none

/-- Leftmost, non-overlapping scan of the flexible pattern, as
`re.findall` performs it: try each position left to right, and resume
after the end of each match.  The fuel argument bounds the walk; a fuel of
`t.length + 1` visits every start position. -/
def flexScanAux (t : List Char) : Nat → Nat → List (Nat × Nat)
  | 0, _ => []
  | fuel + 1, i =>
    if i ≤ t.length then
      match flexMatchLen t i with
      | some len => (i, len) :: flexScanAux t fuel (i + len)
      | none => flexScanAux t fuel (i + 1)
    else []

/-- `ISIN_FLEXIBLE_PATTERN.findall(t)`: the list of matched substrings. -/
def flexFindall (t : List Char) : List (List Char) :=
  (flexScanAux t (t.length + 1) 0).map (fun p => (t.drop p.1).take p.2)

/-- `ISIN_PATTERN.search(t)` as a Boolean (used on normalized candidates). -/
def strictSearchB (t : List Char) : Bool := (List.range (t.length + 1)).any (strictMatchAt t)

/-- The start index of the leftmost `ISIN_PATTERN` match, as `re.search`. -/
def strictFirst (t : List Char) : Option Nat := (List.range (t.length + 1)).find? (strictMatchAt t)

/-- Helper for `Path(name).stem`: walking the reversed name, drop up to and
including the first `'.'`; `none` when no dot occurs. -/
def stemRevDrop : List Char → Option (List Char)
  | [] => none
  | c :: cs => if c == '.' then some cs else stemRevDrop cs

/-- `Path(name).stem`: the name with its last dot-suffix removed, except
that a name whose only dot is its first character keeps it. -/
def pathStem (l : List Char) : List Char :=
  match stemRevDrop l.reverse with
  | some rest => if rest.isEmpty then l else rest.reverse
  | none => l

/-- The step-1 loop of `extract_isin_from_name`: for each flexible match in
scan order, normalize it and return it as soon as normalization matches the
strict pattern and passes the checksum. -/
def firstValidCandidate : List (List Char) → Option (List Char)
  | [] => none
  | m :: ms =>
    let cand := normalizeL m
    if strictSearchB cand && isinChecksumL cand then some cand else firstValidCandidate ms

/-- `extract_isin_from_name` from the source: strip the extension, scan with
the flexible pattern first, then fall back to the first strict match. -/
def extract_isin_from_name (name : String) : Option String :=
  let clean := pathStem name.data
  match firstValidCandidate (flexFindall clean) with
  | some cand => some ⟨cand⟩
  | none =>
    match strictFirst clean with
    | some i =>
      let cand := normalizeL ((clean.drop i).take 12)
      if isinChecksumL cand then some ⟨cand⟩ else none
    | none => none

/-- The per-file action decided by `interactive_fix_mismatched_isin`. -/
inductive ReconcileAction where
  | noAction
  | warnOnly
  | offerRename (isin : String)
  deriving DecidableEq

/-- The branch structure of `interactive_fix_mismatched_isin` for one file,
on the two independently extracted identifiers (name first, content second):
case 1 of the source offers a rename when only the content identifier
exists, case 2 warns when only the name identifier exists, case 3 offers a
rename when both exist and differ, and case 4 does nothing. -/
def reconcile_branch : Option String → Option String → ReconcileAction
  | none, some c => .offerRename c
  | some _, none => .warnOnly
  | some n, some c => if n ≠ c then .offerRename c else .noAction
  | none, none => .noAction

/-- `interactive_remove_duplicates` on one duplicate group: the first file
(`i == 0`) is kept with no prompt; every later file is prompted and removed
exactly when the answer is yes and the `unlink` call succeeds.  Returns the
surviving files and the prompted files. -/
def dedupGroup (files : List String) (resp delOk : String → Bool) : List String × List String :=
  match files with
  | [] => ([], [])
  | first :: rest => (first :: rest.filter (fun f => !(resp f && delOk f)), rest)

/-- The suffix-search loop `suffix = 1; while target_path.exists(): ...`
shared by the rename and move conflict handlers: the least `n ≥ 1` whose
suffixed destination is free.  `occ n` models existence of the destination
carrying suffix `n`; the loop is entered with the unsuffixed destination
occupied and terminates at the first free probe. -/
def freeSuffixIndex (occ : Nat → Bool) (h : ∃ n, 1 ≤ n ∧ occ n = false) : Nat := Nat.find h

/-- The rename-conflict destination `f"{isin}_{suffix}.pdf"`. -/
def suffixedName (stem : String) (n : Nat) : String := stem ++ "_" ++ toString n ++ ".pdf"

/-- The move-conflict destination `f"{base_name}_conflict_{suffix}.pdf"`. -/
def conflictName (stem : String) (n : Nat) : String := stem ++ "_conflict_" ++ toString n ++ ".pdf"

/-- The environment of one `move_pdf_with_conflict_prompt` call: whether the
destination slot is occupied, the answer to the deletion prompt, whether the
`shutil.move` call succeeds, whether the `unlink` call succeeds, and the
destination names. -/
structure IngestEnv where
  dstName : String
  safeName : String
  dstOccupied : Bool
  confirmDeleteNew : Bool
  moveOk : Bool
  unlinkOk : Bool

/-- `move_pdf_with_conflict_prompt` outcome: the new location on success,
`none` when the incoming file was deleted (successfully or not) or a
filesystem operation raised. -/
def move_pdf_result (e : IngestEnv) : Option String :=
  if !e.dstOccupied then
    if e.moveOk then some e.dstName else none
  else if e.confirmDeleteNew then
    none
  else
    if e.moveOk then some e.safeName else none

/-- The Stage-Ingest counting loop of `main`: `moved_count` increments for
exactly the files whose move returned a path. -/
def ingest_moved_count (envs : List IngestEnv) : Nat :=
  (envs.filter (fun e => (move_pdf_result e).isSome)).length

/-- Luhn transform of the digit at 0-indexed position `pos` from the right,
as the spec words it: digits at odd position are doubled, with 9 subtracted
when the doubled value exceeds 9. -/
def luhnDigit (pos d : Nat) : Nat :=
  if pos % 2 = 1 then (if 2 * d > 9 then 2 * d - 9 else 2 * d) else d

/-- Modelled from the spec's wording of the Luhn evaluation: the sum of the
transformed digits, indexed by position from the right. -/
def luhnSpecSum (ds : List Nat) : Nat :=
  ∑ i ∈ Finset.range ds.length, luhnDigit i (ds.reverse.getD i 0)

/-! ### Basic character facts -/

theorem char_toNat_ofNat (n : Nat) (h : n < 55296) : (Char.ofNat n).toNat = n := by
  rw [Char.ofNat, dif_pos (Or.inl h)]
  rfl

theorem char_le_iff_toNat {a b : Char} : a ≤ b ↔ a.toNat ≤ b.toNat := by
  rw [Char.le_def, UInt32.le_def, BitVec.le_def]
  rfl

theorem isLowerC_bounds {c : Char} (h : isLowerC c = true) : 97 ≤ c.toNat ∧ c.toNat ≤ 122 := by
  simp only [isLowerC, Bool.and_eq_true, decide_eq_true_eq] at h
  have e1 : ('a' : Char).toNat = 97 := by decide
  have e2 : ('z' : Char).toNat = 122 := by decide
  exact ⟨e1 ▸ char_le_iff_toNat.mp h.1, e2 ▸ char_le_iff_toNat.mp h.2⟩

theorem isUpperC_bounds {c : Char} (h : isUpperC c = true) : 65 ≤ c.toNat ∧ c.toNat ≤ 90 := by
  simp only [isUpperC, Bool.and_eq_true, decide_eq_true_eq] at h
  have e1 : ('A' : Char).toNat = 65 := by decide
  have e2 : ('Z' : Char).toNat = 90 := by decide
  exact ⟨e1 ▸ char_le_iff_toNat.mp h.1, e2 ▸ char_le_iff_toNat.mp h.2⟩

theorem isSepC_cases {c : Char} (h : isSepC c = true) :
    c = ' ' ∨ c = '\t' ∨ c = '\n' ∨ c = '\r' ∨ c = '\x0b' ∨ c = '\x0c' ∨ c = '-' := by
  simp only [isSepC, Bool.or_eq_true, beq_iff_eq] at h
  tauto

theorem isSepC_toNat_lt {d : Char} (h : isSepC d = true) : d.toNat < 48 := by
  rcases isSepC_cases h with h1 | h1 | h1 | h1 | h1 | h1 | h1 <;> subst h1 <;> decide

theorem isAlnumI_eq_false_of_isSepC {d : Char} (h : isSepC d = true) : isAlnumI d = false := by
  rcases isSepC_cases h with h1 | h1 | h1 | h1 | h1 | h1 | h1 <;> subst h1 <;> decide

theorem isSepC_eq_false_of_isAlnumI {c : Char} (h : isAlnumI c = true) : isSepC c = false := by
  cases hs : isSepC c
  · rfl
  · rw [isAlnumI_eq_false_of_isSepC hs] at h
    cases h

theorem pyUpperChar_toNat {c : Char} (h : isLowerC c = true) :
    (pyUpperChar c).toNat = c.toNat - 32 := by
  have hb := isLowerC_bounds h
  unfold pyUpperChar
  rw [if_pos h]
  exact char_toNat_ofNat _ (by omega)

theorem pyUpperChar_eq_self {c : Char} (h : isLowerC c = false) : pyUpperChar c = c := by
  unfold pyUpperChar
  rw [if_neg (by simp [h])]

theorem isLowerC_pyUpperChar (c : Char) : isLowerC (pyUpperChar c) = false := by
  by_cases h : isLowerC c = true
  · have hb := isLowerC_bounds h
    have ht := pyUpperChar_toNat h
    cases h2 : isLowerC (pyUpperChar c)
    · rfl
    · have := isLowerC_bounds h2
      omega
  · rw [Bool.not_eq_true] at h
    rw [pyUpperChar_eq_self h]
    exact h

theorem pyUpperChar_idem (c : Char) : pyUpperChar (pyUpperChar c) = pyUpperChar c :=
  pyUpperChar_eq_self (isLowerC_pyUpperChar c)

theorem isSepC_pyUpperChar (c : Char) : isSepC (pyUpperChar c) = isSepC c := by
  by_cases h : isLowerC c = true
  · have hb := isLowerC_bounds h
    have ht := pyUpperChar_toNat h
    have h1 : isSepC (pyUpperChar c) = false := by
      cases hx : isSepC (pyUpperChar c)
      · rfl
      · have := isSepC_toNat_lt hx
        omega
    have h2 : isSepC c = false := by
      cases hx : isSepC c
      · rfl
      · have := isSepC_toNat_lt hx
        omega
    rw [h1, h2]
  · rw [Bool.not_eq_true] at h
    rw [pyUpperChar_eq_self h]

theorem pyLowerChar_eq_y {c : Char} : pyLowerChar c = 'y' ↔ c = 'y' ∨ c = 'Y' := by
  constructor
  · intro h
    by_cases hu : isUpperC c = true
    · have hb := isUpperC_bounds hu
      unfold pyLowerChar at h
      rw [if_pos hu] at h
      have ht := congrArg Char.toNat h
      rw [char_toNat_ofNat _ (by omega)] at ht
      have hy : ('y' : Char).toNat = 121 := by decide
      rw [hy] at ht
      have hc : c.toNat = 89 := by omega
      have : c = Char.ofNat c.toNat := (Char.ofNat_toNat c).symm
      rw [hc] at this
      rw [this]
      decide
    · rw [Bool.not_eq_true] at hu
      unfold pyLowerChar at h
      rw [if_neg (by simp [hu])] at h
      exact Or.inl h
  · rintro (rfl | rfl) <;> decide

/-! ### Normalization: idempotence -/

theorem normalizeL_idem (l : List Char) : normalizeL (normalizeL l) = normalizeL l := by
  unfold normalizeL
  rw [List.filter_map, List.map_map]
  have hp : ((fun c => !isSepC c) ∘ pyUpperChar) = (fun c => !isSepC c) := by
    funext c
    simp [Function.comp, isSepC_pyUpperChar]
  have hu : (pyUpperChar ∘ pyUpperChar) = pyUpperChar := by
    funext c
    exact pyUpperChar_idem c
  rw [hp, List.filter_filter, hu]
  congr 1
  apply List.filter_congr
  intro c _
  rw [Bool.and_self]

/-- Claim C9: `normalize_isin_candidate` (remove all whitespace and hyphen
characters, then uppercase) is idempotent: applying it twice gives the same
result as applying it once, for every string; the function is a pure total
Lean function. -/
theorem claim_C9_normalize_idempotent (s : String) :
    normalize_isin_candidate (normalize_isin_candidate s) = normalize_isin_candidate s :=
  congrArg String.mk (normalizeL_idem s.data)

/-! ### Checksum shape test: case sensitivity (C7) -/

/-- Claim C7 counterexample: the shape test inside `isin_checksum_valid` is
compiled without `re.IGNORECASE`, so the lower-case spelling of a valid
identifier is rejected even though the upper-case spelling is accepted —
contradicting the claim that the normalized-form test is case-insensitive
and that lower-case valid identifiers pass. -/
theorem claim_C7_counterexample :
    isin_checksum_valid "US0378331005" = true ∧ isin_checksum_valid "us0378331005" = false := by
  constructor <;> decide

/-- Claim C7 (amended): `isin_checksum_valid` returns false immediately for
every input that does not match the case-sensitive normalized form
(2 upper-case letters, 9 upper-case alphanumerics, 1 digit); in particular
lower-case renderings of valid identifiers are rejected, and callers obtain
case-insensitivity by upper-casing via `normalize_isin_candidate` first. -/
theorem claim_C7_amended (code : String) (h : fullShape code.data = false) :
    isin_checksum_valid code = false := by
  unfold isin_checksum_valid isinChecksumL
  rw [if_neg (by simp [h])]

theorem claim_C7_witness :
    fullShape "us0378331005".data = false ∧ isin_checksum_valid "us0378331005" = false :=
  ⟨by decide, claim_C7_amended "us0378331005" (by decide)⟩

/-! ### Prompt predicate (C8) -/

/-- Claim C8 counterexample: a prompt answer is fed through
`.strip().lower()` before the comparison with `'y'`, so the inputs `"Y"`
and `" y"` take the affirmative branch — contradicting the claim that any
input other than exactly `"y"` is treated as "no". -/
theorem claim_C8_counterexample :
    prompt_is_yes "Y" = true ∧ prompt_is_yes " y" = true := by
  constructor <;> decide

theorem map_pyLowerChar_eq_y {l : List Char} :
    l.map pyLowerChar = ['y'] ↔ l = ['y'] ∨ l = ['Y'] := by
  cases l with
  | nil => simp
  | cons c cs =>
    cases cs with
    | nil => simp [pyLowerChar_eq_y]
    | cons c2 cs2 => simp

theorem pyLower_eq_y (t : String) : pyLower t = "y" ↔ t = "y" ∨ t = "Y" := by
  constructor
  · intro h
    have hd := congrArg String.data h
    rcases map_pyLowerChar_eq_y.mp hd with h1 | h1
    · exact Or.inl (String.ext h1)
    · exact Or.inr (String.ext h1)
  · rintro (rfl | rfl) <;> decide

/-- Claim C8 (amended): the affirmative branch of every confirmation prompt
is taken exactly when the input, after stripping surrounding whitespace, is
the single letter y in either case (`"y"` or `"Y"`); all other inputs
(for example `"yes"` or the empty string) take the negative branch. -/
theorem claim_C8_amended (s : String) :
    prompt_is_yes s = true ↔ (pyStrip s = "y" ∨ pyStrip s = "Y") := by
  unfold prompt_is_yes
  rw [beq_iff_eq]
  exact pyLower_eq_y (pyStrip s)

/-! ### Extraction of a hyphen-interrupted identifier (C3) -/

/-- Claim C3: on text containing the hyphen-interrupted candidate
`US-037833-1005` with no adjacent alphanumeric characters, extraction finds
the candidate via the lenient pattern, normalizes the hyphens away and
upper-cases, validates the checksum, and returns the canonical identifier
`US0378331005`; shown both for the bare candidate and for a filename
embedding it in noise text. -/
theorem claim_C3_hyphenated_extract :
    extract_isin_from_name "US-037833-1005" = some "US0378331005" ∧
    extract_isin_from_name "TS US-037833-1005 final.pdf" = some "US0378331005" := by
  constructor <;> rfl

/-! ### Reconcile-stage branch table (C4) -/

/-- Claim C4: for each file of the reconcile stage the per-file branch on
the independently extracted name-identifier and content-identifier is a
total four-way case split: both absent or both equal take no action; name
present with content absent warns only; name absent with content present
offers a rename to the content identifier; both present and different
offers a rename to the content identifier. -/
theorem claim_C4_reconcile_branches (n c : Option String) :
    (n = none → c = none → reconcile_branch n c = .noAction) ∧
    (∀ x, n = some x → c = some x → reconcile_branch n c = .noAction) ∧
    (∀ x, n = some x → c = none → reconcile_branch n c = .warnOnly) ∧
    (∀ y, n = none → c = some y → reconcile_branch n c = .offerRename y) ∧
    (∀ x y, n = some x → c = some y → x ≠ y → reconcile_branch n c = .offerRename y) := by
  refine ⟨?_, ?_, ?_, ?_, ?_⟩ <;> intros <;> subst_vars <;> simp_all [reconcile_branch]

theorem claim_C4_witness :
    reconcile_branch none (some "US0378331005") = .offerRename "US0378331005" ∧
    reconcile_branch (some "A") none = .warnOnly ∧
    reconcile_branch (some "A") (some "B") = .offerRename "B" ∧
    reconcile_branch (some "A") (some "A") = .noAction ∧
    reconcile_branch none none = .noAction := by
  refine ⟨?_, ?_, ?_, ?_, ?_⟩
  · exact (claim_C4_reconcile_branches none (some "US0378331005")).2.2.2.1 _ rfl rfl
  · exact (claim_C4_reconcile_branches (some "A") none).2.2.1 _ rfl rfl
  · exact (claim_C4_reconcile_branches (some "A") (some "B")).2.2.2.2 _ _ rfl rfl (by decide)
  · exact (claim_C4_reconcile_branches (some "A") (some "A")).2.1 _ rfl rfl
  · exact (claim_C4_reconcile_branches none none).1 rfl rfl

/-! ### Deduplicate-stage retention (C5) -/

/-- Claim C5: within one duplicate group, the first member in enumeration
order is retained unconditionally and is never prompted; exactly the
subsequent members are prompted, individually; if every prompt is declined
all members survive; and no file leaves the group without an affirmative
answer to its prompt. -/
theorem claim_C5_dedup_group (files : List String) (resp delOk : String → Bool) :
    (∀ f fs, files = f :: fs →
      f ∈ (dedupGroup files resp delOk).1 ∧ (dedupGroup files resp delOk).2 = fs) ∧
    ((∀ f ∈ (dedupGroup files resp delOk).2, resp f = false) →
      (dedupGroup files resp delOk).1 = files) ∧
    (∀ g ∈ files, g ∉ (dedupGroup files resp delOk).1 → resp g = true) := by
  cases files with
  | nil =>
    refine ⟨?_, ?_, ?_⟩
    · intro f fs h
      cases h
    · intro _
      rfl
    · intro g hg
      exact absurd hg (by simp)
  | cons first rest =>
    refine ⟨?_, ?_, ?_⟩
    · intro f fs h
      injection h with h1 h2
      subst h1
      subst h2
      exact ⟨List.mem_cons_self _ _, rfl⟩
    · intro hall
      show first :: rest.filter _ = first :: rest
      congr 1
      apply List.filter_eq_self.mpr
      intro f hf
      rw [hall f hf]
      rfl
    · intro g hg hns
      cases hr : resp g
      · exfalso
        apply hns
        rcases List.mem_cons.mp hg with rfl | hgr
        · exact List.mem_cons_self _ _
        · apply List.mem_cons_of_mem
          apply List.mem_filter.mpr
          refine ⟨hgr, ?_⟩
          rw [hr]
          rfl
      · rfl

theorem claim_C5_witness :
    (dedupGroup ["XS1.pdf", "XS1_1.pdf", "XS1_2.pdf"] (fun _ => false) (fun _ => true)).1 =
      ["XS1.pdf", "XS1_1.pdf", "XS1_2.pdf"] :=
  (claim_C5_dedup_group ["XS1.pdf", "XS1_1.pdf", "XS1_2.pdf"] (fun _ => false)
    (fun _ => true)).2.1 (by decide)

/-! ### Conflict-suffix search (C6) -/

theorem freeSuffix_spec (occ : Nat → Bool) (h : ∃ n, 1 ≤ n ∧ occ n = false) :
    1 ≤ freeSuffixIndex occ h ∧ occ (freeSuffixIndex occ h) = false ∧
    (∀ m, 1 ≤ m → m < freeSuffixIndex occ h → occ m = true) ∧
    (occ 1 = false → freeSuffixIndex occ h = 1) := by
  have hs := Nat.find_spec h
  refine ⟨hs.1, hs.2, ?_, ?_⟩
  · intro m h1 hm
    have hmin := Nat.find_min h hm
    cases hocc : occ m
    · exact absurd ⟨h1, hocc⟩ hmin
    · rfl
  · intro h1
    have hle : Nat.find h ≤ 1 := Nat.find_le ⟨Nat.le_refl 1, h1⟩
    have hge : 1 ≤ Nat.find h := hs.1
    show Nat.find h = 1
    omega

/-- Claim C6: the conflict resolver's suffix search (the
`suffix = 1; while target_path.exists(): ...` loops building
`<stem>_<N>.pdf` and `<stem>_conflict_<N>.pdf`) chooses the smallest
positive integer whose suffixed destination does not exist: the chosen slot
is free, every smaller positive suffix is occupied, and when suffix 1 is
free it is chosen — for both the plain and the `_conflict_` name shapes. -/
theorem claim_C6_suffix_search (existsF : String → Bool) (stem : String)
    (h1 : ∃ n, 1 ≤ n ∧ (fun k => existsF (suffixedName stem k)) n = false)
    (h2 : ∃ n, 1 ≤ n ∧ (fun k => existsF (conflictName stem k)) n = false) :
    (1 ≤ freeSuffixIndex (fun k => existsF (suffixedName stem k)) h1 ∧
      existsF (suffixedName stem (freeSuffixIndex (fun k => existsF (suffixedName stem k)) h1)) =
        false ∧
      (∀ m, 1 ≤ m → m < freeSuffixIndex (fun k => existsF (suffixedName stem k)) h1 →
        existsF (suffixedName stem m) = true) ∧
      (existsF (suffixedName stem 1) = false →
        freeSuffixIndex (fun k => existsF (suffixedName stem k)) h1 = 1)) ∧
    (1 ≤ freeSuffixIndex (fun k => existsF (conflictName stem k)) h2 ∧
      existsF (conflictName stem (freeSuffixIndex (fun k => existsF (conflictName stem k)) h2)) =
        false ∧
      (∀ m, 1 ≤ m → m < freeSuffixIndex (fun k => existsF (conflictName stem k)) h2 →
        existsF (conflictName stem m) = true) ∧
      (existsF (conflictName stem 1) = false →
        freeSuffixIndex (fun k => existsF (conflictName stem k)) h2 = 1)) :=
  ⟨freeSuffix_spec _ h1, freeSuffix_spec _ h2⟩

theorem claim_C6_h1 :
    ∃ n, 1 ≤ n ∧
      (fun k => (fun s => s == "US0378331005_1.pdf") (suffixedName "US0378331005" k)) n = false :=
  ⟨2, by decide⟩

theorem claim_C6_h2 :
    ∃ n, 1 ≤ n ∧
      (fun k => (fun s => s == "US0378331005_1.pdf") (conflictName "US0378331005" k)) n = false :=
  ⟨1, by decide⟩

theorem claim_C6_witness :
    1 ≤ freeSuffixIndex
        (fun k => (fun s => s == "US0378331005_1.pdf") (suffixedName "US0378331005" k))
        claim_C6_h1 ∧
    1 ≤ freeSuffixIndex
        (fun k => (fun s => s == "US0378331005_1.pdf") (conflictName "US0378331005" k))
        claim_C6_h2 :=
  ⟨((claim_C6_suffix_search (fun s => s == "US0378331005_1.pdf") "US0378331005"
      claim_C6_h1 claim_C6_h2).1).1,
    ((claim_C6_suffix_search (fun s => s == "US0378331005_1.pdf") "US0378331005"
      claim_C6_h1 claim_C6_h2).2).1⟩

/-! ### Ingest-stage moved count (C10) -/

/-- Claim C10: Stage-Ingest counts only files actually relocated — when a
name conflict is resolved by the user confirming deletion of the incoming
file, or when the move (or delete) call raises, the per-file operation
yields `none` and the moved-count is not incremented; conversely a
returned destination increments the count by one. -/
theorem claim_C10_moved_count (e : IngestEnv) (envs : List IngestEnv) :
    (e.dstOccupied = true → e.confirmDeleteNew = true → move_pdf_result e = none) ∧
    (e.moveOk = false → move_pdf_result e = none) ∧
    (move_pdf_result e = none → ingest_moved_count (e :: envs) = ingest_moved_count envs) ∧
    (move_pdf_result e ≠ none →
      ingest_moved_count (e :: envs) = ingest_moved_count envs + 1) := by
  obtain ⟨dn, sn, occ, conf, mv, ul⟩ := e
  refine ⟨?_, ?_, ?_, ?_⟩
  · intro h1 h2
    subst h1
    subst h2
    simp [move_pdf_result]
  · intro h
    subst h
    cases occ <;> cases conf <;> simp [move_pdf_result]
  · intro h
    simp [ingest_moved_count, List.filter_cons, h]
  · intro h
    have hs : (move_pdf_result ⟨dn, sn, occ, conf, mv, ul⟩).isSome = true :=
      Option.isSome_iff_ne_none.mpr h
    simp [ingest_moved_count, List.filter_cons, hs]

theorem claim_C10_witness :
    move_pdf_result ⟨"a.pdf", "a_conflict_1.pdf", true, true, true, true⟩ = none ∧
    ingest_moved_count [⟨"a.pdf", "a_conflict_1.pdf", true, true, true, true⟩] =
      ingest_moved_count [] := by
  refine ⟨(claim_C10_moved_count ⟨"a.pdf", "a_conflict_1.pdf", true, true, true, true⟩ []).1
    rfl rfl, ?_⟩
  exact (claim_C10_moved_count ⟨"a.pdf", "a_conflict_1.pdf", true, true, true, true⟩ []).2.2.1
    ((claim_C10_moved_count ⟨"a.pdf", "a_conflict_1.pdf", true, true, true, true⟩ []).1 rfl rfl)

/-! ### Checksum versus the spec's Luhn description (C1) -/

theorem luhnDigit_congr {p q : Nat} (h : p % 2 = q % 2) (d : Nat) :
    luhnDigit p d = luhnDigit q d := by
  unfold luhnDigit
  rw [h]

theorem luhnLoop_eq_sum (r : List Nat) (b : Bool) :
    luhnLoop r b =
      ∑ i ∈ Finset.range r.length, luhnDigit (i + (if b then 1 else 0)) (r.getD i 0) := by
  induction r generalizing b with
  | nil => simp [luhnLoop]
  | cons d rest ih =>
    rw [luhnLoop, ih (!b), List.length_cons, Finset.sum_range_succ', Nat.add_comm]
    congr 1
    · apply Finset.sum_congr rfl
      intro i _
      rw [List.getD_cons_succ]
      apply luhnDigit_congr
      cases b
      · simp
      · simp
        omega
    · rw [List.getD_cons_zero]
      cases b <;> simp [luhnDigit]

theorem luhnLoop_reverse_eq_spec (ds : List Nat) :
    luhnLoop ds.reverse false = luhnSpecSum ds := by
  rw [luhnLoop_eq_sum]
  unfold luhnSpecSum
  rw [List.length_reverse]
  apply Finset.sum_congr rfl
  intro i _
  simp

/-- Claim C1: on every string of the checked shape (2 letters, 9
alphanumerics, 1 digit), `isin_checksum_valid` returns true exactly when
the Luhn sum of the digit expansion (letters contributing their two-decimal
value 10–35, digits themselves, odd positions from the right doubled with 9
subtracted above 9) is 0 modulo 10 — so every valid identifier passes. -/
theorem claim_C1_checksum_iff_luhn (code : String) (h : fullShape code.data = true) :
    isin_checksum_valid code = true ↔ luhnSpecSum (expandCode code.data) % 10 = 0 := by
  unfold isin_checksum_valid isinChecksumL
  rw [if_pos h, luhnLoop_reverse_eq_spec]
  exact beq_iff_eq

theorem claim_C1_witness :
    fullShape "US0378331005".data = true ∧
    (isin_checksum_valid "US0378331005" = true ↔
      luhnSpecSum (expandCode "US0378331005".data) % 10 = 0) :=
  ⟨by decide, claim_C1_checksum_iff_luhn "US0378331005" (by decide)⟩

/-! ### Boundary assertions reject submatches of long alphanumeric runs (C2) -/

theorem getD_drop_char (t : List Char) (i k : Nat) :
    (t.drop i).getD k ' ' = t.getD (i + k) ' ' := by
  induction i generalizing t with
  | zero => simp
  | succ i ih =>
    cases t with
    | nil => simp
    | cons c cs =>
      show (cs.drop i).getD k ' ' = (c :: cs).getD (i + 1 + k) ' '
      rw [show i + 1 + k = (i + k) + 1 by omega, List.getD_cons_succ]
      exact ih cs

theorem takeClass_eq_drop {p : Char → Bool} :
    ∀ {n : Nat} {l r : List Char}, takeClass p n l = some r → r = l.drop n := by
  intro n
  induction n with
  | zero =>
    intro l r h
    simp only [takeClass] at h
    injection h with h1
    rw [← h1]
    rfl
  | succ n ih =>
    intro l r h
    cases l with
    | nil => simp [takeClass] at h
    | cons c cs =>
      simp only [takeClass] at h
      by_cases hp : p c = true
      · rw [if_pos hp] at h
        rw [List.drop_succ_cons]
        exact ih h
      · rw [if_neg (by simp [hp])] at h
        cases h

theorem skipSeps_cons_alnum {c : Char} (cs : List Char) (h : isAlnumI c = true) :
    skipSeps (c :: cs) = c :: cs := by
  unfold skipSeps
  rw [List.dropWhile_cons, if_neg (by simp [isSepC_eq_false_of_isAlnumI h])]

theorem strictBodyEnd_eq_drop {l r : List Char} (h : strictBodyEnd l = some r) :
    r = l.drop 12 := by
  unfold strictBodyEnd at h
  cases h1 : takeClass isLetterI 2 l with
  | none =>
    rw [h1] at h
    cases h
  | some l1 =>
    rw [h1] at h
    have ha : (match takeClass isAlnumI 9 l1 with
        | none => none
        | some l2 => takeClass isDigitC 1 l2) = some r := h
    cases h2 : takeClass isAlnumI 9 l1 with
    | none =>
      rw [h2] at ha
      cases ha
    | some l2 =>
      rw [h2] at ha
      have hb2 : takeClass isDigitC 1 l2 = some r := ha
      have e1 := takeClass_eq_drop h1
      have e2 := takeClass_eq_drop h2
      have e3 := takeClass_eq_drop hb2
      rw [e3, e2, e1, List.drop_drop, List.drop_drop]

theorem flexGroups_eq_drop :
    ∀ {n : Nat} {l r : List Char},
      (∀ k, k < n → isAlnumI (l.getD k ' ') = true) →
      flexGroups n l = some r → r = l.drop n := by
  intro n
  induction n with
  | zero =>
    intro l r _ h
    simp only [flexGroups] at h
    injection h with h1
    rw [← h1]
    rfl
  | succ n ih =>
    intro l r hal h
    cases l with
    | nil => simp [flexGroups, skipSeps] at h
    | cons c cs =>
      have hc : isAlnumI c = true := by simpa using hal 0 (Nat.succ_pos n)
      simp only [flexGroups, skipSeps_cons_alnum cs hc] at h
      rw [if_pos hc] at h
      rw [List.drop_succ_cons]
      refine ih ?_ h
      intro k hk
      simpa using hal (k + 1) (by omega)

theorem flexBody_eq_drop {l r : List Char}
    (hal : ∀ k, k < 12 → isAlnumI (l.getD k ' ') = true)
    (h : flexBody l = some r) : r = l.drop 12 := by
  unfold flexBody at h
  cases h1 : takeClass isLetterI 2 l with
  | none =>
    rw [h1] at h
    cases h
  | some l1 =>
    rw [h1] at h
    have e1 : l1 = l.drop 2 := takeClass_eq_drop h1
    have ha : (match flexGroups 9 l1 with
        | none => none
        | some l2 =>
          match skipSeps l2 with
          | [] => none
          | c :: cs => if isDigitC c then some cs else none) = some r := h
    cases h2 : flexGroups 9 l1 with
    | none =>
      rw [h2] at ha
      cases ha
    | some l2 =>
      rw [h2] at ha
      have hb2 : (match skipSeps l2 with
          | [] => none
          | c :: cs => if isDigitC c then some cs else none) = some r := ha
      have hal1 : ∀ k, k < 9 → isAlnumI (l1.getD k ' ') = true := by
        intro k hk
        rw [e1, getD_drop_char]
        exact hal (2 + k) (by omega)
      have e2 : l2 = l.drop 11 := by
        rw [flexGroups_eq_drop hal1 h2, e1, List.drop_drop]
      cases hl2 : l2 with
      | nil =>
        rw [hl2] at hb2
        simp [skipSeps] at hb2
      | cons c cs =>
        have hgd : (l.drop 11).getD 0 ' ' = l.getD 11 ' ' := getD_drop_char l 11 0
        rw [← e2, hl2, List.getD_cons_zero] at hgd
        have hc : isAlnumI c = true := by
          rw [hgd]
          exact hal 11 (by omega)
        rw [hl2, skipSeps_cons_alnum cs hc] at hb2
        have h' : (if isDigitC c then some cs else none) = some r := hb2
        by_cases hd : isDigitC c = true
        · rw [if_pos hd] at h'
          injection h' with h3
          have hconsEq : l.drop 11 = c :: cs := by rw [← e2, hl2]
          have ht2 : (l.drop 11).tail = cs := by
            rw [hconsEq]
            rfl
          rw [List.tail_drop] at ht2
          rw [← h3]
          exact ht2.symm
        · rw [if_neg (by simp [hd])] at h'
          cases h'

theorem matchers_false_in_run {t : List Char} {a b j : Nat}
    (hrun : ∀ k, k < b - a → isAlnumI (t.getD (a + k) ' ') = true)
    (hlen : 13 ≤ b - a) (hb : b ≤ t.length) (haj : a ≤ j) (hjb : j + 12 ≤ b) :
    strictMatchAt t j = false ∧ flexMatchLen t j = none := by
  by_cases hja : j = a
  · subst hja
    have h12 : isAlnumI (t.getD (j + 12) ' ') = true := by
      have := hrun 12 (by omega)
      rw [show j + 12 = j + 12 from rfl] at this
      exact this
    have hlt : j + 12 < t.length := by omega
    have hdrop_ne : t.drop (j + 12) ≠ [] := by
      intro hnil
      have hld := List.length_drop (j + 12) t
      rw [hnil] at hld
      simp at hld
      omega
    obtain ⟨c, cs, hcons⟩ := List.exists_cons_of_ne_nil hdrop_ne
    have hc : c = t.getD (j + 12) ' ' := by
      have hgd := getD_drop_char t (j + 12) 0
      rw [hcons, List.getD_cons_zero] at hgd
      exact hgd
    have hnaa : noAlnumAhead (t.drop (j + 12)) = false := by
      rw [hcons]
      show (!isAlnumI c) = false
      rw [hc, h12]
      rfl
    constructor
    · unfold strictMatchAt
      cases hsb : strictBodyEnd (t.drop j) with
      | none =>
        exact Bool.and_false _
      | some rest =>
        have hrest : rest = t.drop (j + 12) := by
          rw [strictBodyEnd_eq_drop hsb, List.drop_drop]
        show (noAlnumBefore t j && noAlnumAhead rest) = false
        rw [hrest, hnaa, Bool.and_false]
    · unfold flexMatchLen
      cases hfb : flexBody (t.drop j) with
      | none =>
        split
        · rfl
        · rfl
      | some rest =>
        have hal12 : ∀ k, k < 12 → isAlnumI ((t.drop j).getD k ' ') = true := by
          intro k hk
          rw [getD_drop_char]
          exact hrun k (by omega)
        have hrest : rest = t.drop (j + 12) := by
          rw [flexBody_eq_drop hal12 hfb, List.drop_drop]
        simp [hrest, hnaa]
  · have hj1 : j ≠ 0 := by omega
    have hbe : isAlnumI (t.getD (j - 1) ' ') = true := by
      have := hrun (j - 1 - a) (by omega)
      rw [show a + (j - 1 - a) = j - 1 by omega] at this
      exact this
    have hnb : noAlnumBefore t j = false := by
      unfold noAlnumBefore
      rw [hbe]
      simp [hj1]
    constructor
    · unfold strictMatchAt
      rw [hnb, Bool.false_and]
    · unfold flexMatchLen
      rw [if_neg (by simp [hnb])]

theorem all_getD {l : List Char} (h : ∀ c ∈ l, isAlnumI c = true) {k : Nat}
    (hk : k < l.length) : isAlnumI (l.getD k ' ') = true := by
  have hg : l.getD k ' ' = l[k] := by
    rw [List.getD_eq_getElem?_getD, List.getElem?_eq_getElem hk]
    rfl
  rw [hg]
  exact h _ (List.getElem_mem hk)

theorem stemRevDrop_eq_none {l : List Char} (h : ∀ c ∈ l, isAlnumI c = true) :
    stemRevDrop l = none := by
  induction l with
  | nil => rfl
  | cons c cs ih =>
    have hc := h c (List.mem_cons_self _ _)
    have hne : c ≠ '.' := by
      intro hq
      subst hq
      exact absurd hc (by decide)
    unfold stemRevDrop
    rw [if_neg (by simp [hne])]
    exact ih (fun d hd => h d (List.mem_cons_of_mem _ hd))

theorem pathStem_eq_self {l : List Char} (h : ∀ c ∈ l, isAlnumI c = true) :
    pathStem l = l := by
  unfold pathStem
  rw [stemRevDrop_eq_none (fun c hc => h c (List.mem_reverse.mp hc))]

theorem run_matchers_false_all {t : List Char} (h : ∀ c ∈ t, isAlnumI c = true)
    (hlen : 13 ≤ t.length) :
    ∀ i, strictMatchAt t i = false ∧ flexMatchLen t i = none := by
  intro i
  by_cases hi : i = 0
  · subst hi
    refine matchers_false_in_run (a := 0) (b := t.length) ?_ (by omega) (by omega)
      (by omega) (by omega)
    intro k hk
    have : isAlnumI (t.getD k ' ') = true := all_getD h (by omega)
    simpa using this
  · by_cases hile : i ≤ t.length
    · have hbe : isAlnumI (t.getD (i - 1) ' ') = true := all_getD h (by omega)
      have hnb : noAlnumBefore t i = false := by
        unfold noAlnumBefore
        rw [hbe]
        simp [hi]
      constructor
      · unfold strictMatchAt
        rw [hnb, Bool.false_and]
      · unfold flexMatchLen
        rw [if_neg (by simp [hnb])]
    · have hdrop : t.drop i = [] := by
        apply List.drop_eq_nil_of_le
        omega
      constructor
      · unfold strictMatchAt
        rw [hdrop]
        exact Bool.and_false _
      · unfold flexMatchLen
        rw [hdrop]
        split
        · rfl
        · rfl

theorem flexScanAux_eq_nil {t : List Char} (hall : ∀ i, flexMatchLen t i = none) :
    ∀ fuel i, flexScanAux t fuel i = [] := by
  intro fuel
  induction fuel with
  | zero =>
    intro i
    rfl
  | succ fuel ih =>
    intro i
    unfold flexScanAux
    rw [hall i]
    by_cases hle : i ≤ t.length
    · rw [if_pos hle]
      exact ih (i + 1)
    · rw [if_neg hle]

theorem strictFirst_eq_none {t : List Char} (hall : ∀ i, strictMatchAt t i = false) :
    strictFirst t = none := by
  unfold strictFirst
  rw [List.find?_eq_none]
  intro i _
  simp [hall i]

/-- Claim C2: the boundary assertions of both patterns reject any
12-character window lying inside an alphanumeric run of 13 or more
characters — a candidate is accepted only when not adjacent to another
alphanumeric character on either side, for both the strict and the lenient
scan — and on a text that is one long alphanumeric run the whole extraction
returns nothing. -/
theorem claim_C2_no_submatch_of_long_run (t : List Char) (a b j : Nat)
    (hrun : ∀ k, k < b - a → isAlnumI (t.getD (a + k) ' ') = true)
    (hlen : 13 ≤ b - a) (hb : b ≤ t.length) (haj : a ≤ j) (hjb : j + 12 ≤ b) :
    (strictMatchAt t j = false ∧ flexMatchLen t j = none) ∧
    (∀ s : String, (∀ c ∈ s.data, isAlnumI c = true) → 13 ≤ s.data.length →
      extract_isin_from_name s = none) := by
  constructor
  · exact matchers_false_in_run hrun hlen hb haj hjb
  · intro s hs hslen
    have hall := run_matchers_false_all hs hslen
    have hscan : flexFindall (pathStem s.data) = [] := by
      rw [pathStem_eq_self hs]
      unfold flexFindall
      rw [flexScanAux_eq_nil (fun i => (hall i).2) _ 0]
      rfl
    have hfirst : strictFirst (pathStem s.data) = none := by
      rw [pathStem_eq_self hs]
      exact strictFirst_eq_none (fun i => (hall i).1)
    simp only [extract_isin_from_name]
    rw [hscan, hfirst]
    rfl

theorem claim_C2_witness :
    strictMatchAt "XS12345678901".data 1 = false ∧
    flexMatchLen "XS12345678901".data 1 = none :=
  (claim_C2_no_submatch_of_long_run "XS12345678901".data 0 13 1
    (by decide) (by decide) (by decide) (by decide) (by decide)).1

end TSCleaner
